import Mathlib

/-!
Shallow embedding of the benchmarking harness in
`src/experiments/rocksdb-merge-bench/merge_bench.cc` and
`src/experiments/lsm-space-amp/space_amp.cc`.

Bytes are modelled as natural numbers below 256, byte strings as lists of
such numbers, C++ `uint64_t` arithmetic as `Nat` arithmetic reduced modulo
`2 ^ 64` at each wrapping operation, and `double` quantities that are only
stored, compared or divided as exact rationals.  The storage engine itself
(RocksDB) is an external collaborator: its responses are modelled as status
oracles passed to the embedded driver functions.
-/

namespace MergeBench

/-- Catalog entry of `merge_bench.cc` (struct `Workload`): a mix name and a
read ratio between 0 and 1 (the double literal is modelled exactly as a
rational). -/
structure Workload where
  name : String
  readRatioVal : Rat
deriving DecidableEq

/-- The fixed workload catalog `kWorkloads` of `merge_bench.cc`. -/
def kWorkloads : List Workload :=
  [⟨"10/90", 1/10⟩, ⟨"50/50", 1/2⟩, ⟨"90/10", 9/10⟩]

/-- Function `SelectWorkloads` of `merge_bench.cc`: the empty filter selects the whole
catalog; otherwise entries whose name equals the filter are kept, and an
empty selection raises a configuration error. -/
def SelectWorkloads (filter : String) : Except String (List Workload) :=
  if filter = "" then
    Except.ok kWorkloads
  else
    let selected := kWorkloads.filter (fun w => w.name = filter)
    if selected.isEmpty then
      Except.error ("Unknown workload mix filter: " ++ filter)
    else
      Except.ok selected

/-- Little-endian bytes of `v`, `n` bytes long: the memory image that
`memcpy` reads out of a `uint64_t` on the target platform. -/
def encodeBytes : Nat → Nat → List Nat
  | 0, _ => []
  | n + 1, v => (v % 256) :: encodeBytes n (v / 256)

/-- Function `Encode` of `merge_bench.cc`: an 8-byte string holding the `uint64_t`
value (little-endian memory image). -/
def Encode (v : Nat) : List Nat :=
  encodeBytes 8 v

/-- Function `Decode` of `merge_bench.cc`: `memcpy` of `min(size, 8)` bytes of the
slice into a zero-initialised `uint64_t`, so the first `min(size, 8)` bytes
become the low-order bytes and any missing high-order bytes stay zero. -/
def Decode (s : List Nat) : Nat :=
  (s.take 8).foldr (fun b acc => b + 256 * acc) 0

/-- Method `CountMergeOperator::FullMergeV2`: a `uint64_t` accumulator starts at 0,
adds the decoded existing value when present, then adds each decoded operand
in order (each addition wrapping modulo `2 ^ 64`), and the result is
re-encoded. -/
def FullMergeV2 (existing : Option (List Nat)) (operands : List (List Nat)) : List Nat :=
  Encode ((existing.toList ++ operands).foldl (fun acc op => (acc + Decode op) % 2 ^ 64) 0)

/-- Method `CountMergeOperator::PartialMerge`: unconditionally refuses to combine
two operands. -/
def PartialMerge (_key _left _right : List Nat) : Bool :=
  false

end MergeBench

namespace SpaceAmp

/-- Constant `kRawPayloadBytes` of `space_amp.cc`: 4 GiB of raw payload. -/
def kRawPayloadBytes : Nat := 4 * 1024 * 1024 * 1024

/-- Constant `kKeySize` of `space_amp.cc`. -/
def kKeySize : Nat := 32

/-- Constant `kValueSize` of `space_amp.cc`. -/
def kValueSize : Nat := 96

/-- Constant `kEntryBytes` of `space_amp.cc`. -/
def kEntryBytes : Nat := kKeySize + kValueSize

/-- Constant `kEntryCount` of `space_amp.cc`: number of dataset entries. -/
def kEntryCount : Nat := kRawPayloadBytes / kEntryBytes

/-- Big-endian decimal digit list of `n` (most significant first), the digit
sequence `snprintf` renders for `%llu`. -/
def decDigits (n : Nat) : List Nat :=
  (Nat.digits 10 n).reverse

/-- The ASCII character for decimal digit `d`. -/
def digitChar (d : Nat) : Char :=
  Char.ofNat (48 + d)

/-- Function `FormatKey` of `space_amp.cc`: `snprintf "%032llu"` renders the decimal
digits of the index left-padded with `'0'` to `kKeySize` characters (indices
below `10 ^ 32` never truncate, and every `uint64_t` is). -/
def FormatKey (index : Nat) : List Char :=
  List.replicate (kKeySize - (decDigits index).length) (digitChar 0) ++
    (decDigits index).map digitChar

/-- Numeric value of a decimal character, as read back from ASCII. -/
def charVal (c : Char) : Nat :=
  c.toNat - 48

/-- Value of a big-endian decimal character string. -/
def parseDecimal (cs : List Char) : Nat :=
  cs.foldl (fun acc c => acc * 10 + charVal c) 0

/-- The loop body of `FillValue` from position `j` on, filling `remaining`
further bytes: position `j` receives character code `'a' + ((index + j) % 26)`. -/
def fillFrom (index j : Nat) : Nat → List Char
  | 0 => []
  | remaining + 1 =>
      Char.ofNat (97 + (index + j) % 26) :: fillFrom index (j + 1) remaining

/-- Function `FillValue` of `space_amp.cc`: the 96-byte value buffer for `index`. -/
def FillValue (index : Nat) : List Char :=
  fillFrom index 0 kValueSize

/-- Status returned by the engine for one point read (`rocksdb::Status` as
seen through `ok()` and `IsNotFound()`). -/
inductive GetStatus where
  | ok : GetStatus
  | notFound : GetStatus
  | ioError : String → GetStatus
deriving DecidableEq

/-- Predicate `Status::ok()` of the engine adapter. -/
def statusOk : GetStatus → Bool
  | GetStatus.ok => true
  | _ => false

/-- Rendering `Status::ToString()` of the engine adapter, as far as the harness quotes
it in error messages. -/
def statusMsg : GetStatus → String
  | GetStatus.ok => "OK"
  | GetStatus.notFound => "NotFound: "
  | GetStatus.ioError m => m

/-- The read loop of `BenchmarkReads`: `issued` reads have completed, and
`remaining` more are requested; the oracle gives the engine status of the
i-th `Get`.  A status that is not `ok()` (a not-found included) raises the
fatal `Read failed` error; otherwise the final count of issued reads is
returned. -/
def benchReadsAux (oracle : Nat → GetStatus) : Nat → Nat → Except String Nat
  | issued, 0 => Except.ok issued
  | issued, remaining + 1 =>
      match oracle issued with
      | GetStatus.ok => benchReadsAux oracle (issued + 1) remaining
      | s => Except.error ("Read failed: " ++ statusMsg s)

/-- Function `BenchmarkReads` of `space_amp.cc`, restricted to its read loop: issues
`readOps` point reads against the engine oracle, aborting on the first
status that is not `ok()`. -/
def BenchmarkReads (oracle : Nat → GetStatus) (readOps : Nat) : Except String Nat :=
  benchReadsAux oracle 0 readOps

/-- The elapsed-seconds floor of `BenchmarkReads`: a non-positive measured
duration is replaced by `1e-9` seconds. -/
def flooredSeconds (s : Rat) : Rat :=
  if s ≤ 0 then 1 / 10 ^ 9 else s

/-- The throughput computation of `BenchmarkReads`:
`read_ops / flooredSeconds(elapsed)`. -/
def readOpsPerSec (readOps : Nat) (elapsed : Rat) : Rat :=
  (readOps : Rat) / flooredSeconds elapsed

/-- The fixed generator seed `0xC0FFEE` of `BenchmarkReads`. -/
def benchSeed : Nat := 0xC0FFEE

/-- Model of `std::uniform_int_distribution<uint64_t>(0, kEntryCount - 1)`
applied to one raw 64-bit generator output.  Modelled from the spec: the
distribution object is external library code; the spec asks for a uniform
draw from `[0, kEntryCount)`, and reduction modulo `kEntryCount = 2 ^ 25`
maps the `2 ^ 64` raw outputs onto the index range with every index hit by
exactly `2 ^ 39` raw outputs. -/
def distMap (x : Nat) : Nat :=
  x % kEntryCount

/-- The sequence of key indices probed by `BenchmarkReads`: the generator
`gen` (a pure model of `std::mt19937_64`, mapping a seed to its output
stream) is seeded with the fixed constant `benchSeed`; the ambient `entropy`
(what `std::random_device` would supply) is never consulted. -/
def probedIndices (gen : Nat → Nat → Nat) (readOps : Nat) (_entropy : Nat) : List Nat :=
  (List.range readOps).map (fun i => distMap (gen benchSeed i))

end SpaceAmp

namespace SpaceAmp

/-- One engine operation issued by the load phase of `RunOnce`: a batched
write of the entries with the given indices, a blocking flush, or a
full-range compaction. -/
inductive Op where
  | batchWrite : List Nat → Op
  | flush : Op
  | compact : Op
deriving DecidableEq

/-- The operation name `RunOnce` uses in the corresponding fatal error
message. -/
def opName : Op → String
  | Op.batchWrite _ => "Write"
  | Op.flush => "Flush"
  | Op.compact => "CompactRange"

/-- The batching loop of `RunOnce`: `pending` holds the entries already
`Put` into the current batch; each further index is appended, and the batch
is submitted as soon as its count reaches `threshold`; a final non-empty
partial batch is submitted after the loop. Returns the submitted batches in
submission order. -/
def loadLoop (threshold : Nat) : List Nat → List Nat → List (List Nat)
  | pending, [] => if pending.isEmpty then [] else [pending]
  | pending, i :: rest =>
      let p := pending ++ [i]
      if threshold ≤ p.length then p :: loadLoop threshold [] rest
      else loadLoop threshold p rest

/-- The batch threshold `batch_size` (1000) of `RunOnce`. -/
def batchThreshold : Nat := 1000

/-- The batches of entry indices `RunOnce` submits when loading `n`
entries. -/
def writeBatches (n : Nat) : List (List Nat) :=
  loadLoop batchThreshold [] (List.range n)

/-- The engine-operation sequence the load phase of `RunOnce` attempts, in
program order: all batched writes, then the blocking flush, then the
full-range compaction. -/
def loadTrace (n : Nat) : List Op :=
  (writeBatches n).map Op.batchWrite ++ [Op.flush, Op.compact]

/-- The write options of `RunOnce` (`rocksdb::WriteOptions` as far as the
harness sets it): the write-ahead log is disabled. -/
structure WriteOpts where
  disableWAL : Bool

/-- Value `write_options` of `RunOnce`. -/
def loadWriteOpts : WriteOpts :=
  ⟨true⟩

/-- The flush options of `RunOnce` (`rocksdb::FlushOptions` as far as the
harness sets it): the flush blocks until completion. -/
structure FlushOpts where
  wait : Bool

/-- Value `flush_options` of `RunOnce`. -/
def loadFlushOpts : FlushOpts :=
  ⟨true⟩

/-- Status the engine returns for one load-phase operation. -/
inductive EngineStatus where
  | ok : EngineStatus
  | error : String → EngineStatus
deriving DecidableEq

/-- Executes a sequence of engine operations in order against a status
oracle: the first failing operation aborts the run with a fatal error naming
the operation and the cause string reported by the engine; otherwise the executed sequence
is returned. -/
def runOps (oracle : Op → EngineStatus) : List Op → Except String (List Op)
  | [] => Except.ok []
  | op :: rest =>
      match oracle op with
      | EngineStatus.ok => (runOps oracle rest).map (fun t => op :: t)
      | EngineStatus.error m => Except.error (opName op ++ " failed: " ++ m)

/-- The load phase of `RunOnce` for `n` entries against an engine oracle:
attempts `loadTrace n` and stops at the first failure. -/
def runLoad (oracle : Op → EngineStatus) (n : Nat) : Except String (List Op) :=
  runOps oracle (loadTrace n)

/-- The per-block-size loop of `main`: each block size is checked for
positivity immediately before `RunOnce` is invoked on it; a non-positive
value aborts the whole run with a configuration error.  Returns the list of
block sizes for which an engine instance is created and loaded, paired with
`true` when the loop completes and `false` when it aborts. -/
def processBlockSizes : List Int → List Int × Bool
  | [] => ([], true)
  | b :: rest =>
      if b ≤ 0 then ([], false)
      else
        let r := processBlockSizes rest
        (b :: r.1, r.2)

end SpaceAmp

/-- The `static_assert` of `space_amp.cc`: the payload divides evenly into
entries. -/
theorem payload_divisible :
    SpaceAmp.kRawPayloadBytes % SpaceAmp.kEntryBytes = 0 := by decide

namespace MergeBench

theorem encodeBytes_length (n v : Nat) : (encodeBytes n v).length = n := by
  induction n generalizing v with
  | zero => rfl
  | succ n ih => simp [encodeBytes, ih]

theorem encodeBytes_foldr (n v : Nat) :
    (encodeBytes n v).foldr (fun b acc => b + 256 * acc) 0 = v % 256 ^ n := by
  induction n generalizing v with
  | zero => simp [encodeBytes, Nat.mod_one]
  | succ n ih =>
      simp only [encodeBytes, List.foldr_cons, ih]
      rw [pow_succ, mul_comm (256 ^ n) 256, Nat.mod_mul]

theorem decode_encode (v : Nat) : Decode (Encode v) = v % 2 ^ 64 := by
  have hlen : (encodeBytes 8 v).length = 8 := encodeBytes_length 8 v
  have : (encodeBytes 8 v).take 8 = encodeBytes 8 v := by
    apply List.take_of_length_le
    exact le_of_eq hlen
  have h64 : (256 : Nat) ^ 8 = 2 ^ 64 := by norm_num
  simp only [Decode, Encode, this, encodeBytes_foldr, h64]

theorem foldr_zero_bytes (m : Nat) :
    (List.replicate m 0).foldr (fun b acc => b + 256 * acc) 0 = 0 := by
  induction m with
  | zero => rfl
  | succ m ih => simp [List.replicate_succ, ih]

theorem decode_zero_extend (s : List Nat) (m : Nat) (h : s.length ≤ 8) :
    Decode (s ++ List.replicate m 0) = Decode s := by
  have hs : s.take 8 = s := List.take_of_length_le h
  simp only [Decode, List.take_append_eq_append_take, hs, List.take_replicate,
    List.foldr_append]
  have : (List.replicate (min (8 - s.length) m) (0 : Nat)).foldr
      (fun b acc => b + 256 * acc) 0 = 0 := foldr_zero_bytes _
  rw [this]

theorem foldl_mod_add (f : List Nat → Nat) (l : List (List Nat)) (a : Nat) :
    l.foldl (fun acc op => (acc + f op) % 2 ^ 64) (a % 2 ^ 64) =
      (a + (l.map f).sum) % 2 ^ 64 := by
  induction l generalizing a with
  | nil => simp
  | cons x tl ih =>
      simp only [List.foldl_cons, List.map_cons, List.sum_cons]
      rw [Nat.mod_add_mod, ih (a + f x)]
      ring_nf

end MergeBench

/-- C10: the counter codec round-trips (`Decode (Encode v) = v` for every
64-bit value `v`), `Encode v` is always exactly 8 bytes long, and `Decode`
is total on arbitrary slices, reading only the available bytes of a short
slice and treating the missing high-order bytes as zero: zero-extending any
slice of at most 8 bytes does not change its decoded value. -/
theorem codec_spec (v m : Nat) (s : List Nat) :
    (MergeBench.Encode v).length = 8 ∧
    (v < 2 ^ 64 → MergeBench.Decode (MergeBench.Encode v) = v) ∧
    (s.length ≤ 8 →
      MergeBench.Decode (s ++ List.replicate m 0) = MergeBench.Decode s) := by
  refine ⟨MergeBench.encodeBytes_length 8 v, fun hv => ?_, fun hs => ?_⟩
  · rw [MergeBench.decode_encode, Nat.mod_eq_of_lt hv]
  · exact MergeBench.decode_zero_extend s m hs

/-- Witness for C10 at concrete inputs: `v = 123456789`, and the 2-byte
slice `[7, 1]` zero-extended by six bytes. -/
theorem codec_spec_witness :
    MergeBench.Decode (MergeBench.Encode 123456789) = 123456789 ∧
    MergeBench.Decode ([7, 1] ++ List.replicate 6 0) = MergeBench.Decode [7, 1] := by
  refine ⟨(codec_spec 123456789 6 [7, 1]).2.1 (by norm_num),
    (codec_spec 123456789 6 [7, 1]).2.2 (by decide)⟩

namespace MergeBench

theorem fullMerge_char (existing : Option (List Nat)) (operands : List (List Nat)) :
    FullMergeV2 existing operands =
      Encode ((existing.elim 0 Decode + (operands.map Decode).sum) % 2 ^ 64) := by
  unfold FullMergeV2
  have h0 : (0 : Nat) = 0 % 2 ^ 64 := by norm_num
  rw [h0, foldl_mod_add Decode (existing.toList ++ operands) 0]
  cases existing with
  | none => simp
  | some v => simp

theorem decode_encode_small (v : Nat) (hv : v < 2 ^ 64) : Decode (Encode v) = v := by
  rw [decode_encode, Nat.mod_eq_of_lt hv]

end MergeBench

/-- C2: `FullMergeV2` returns the encoding of the decoded existing base
value (0 when the base is absent) plus all decoded operands, summed with
`uint64_t` wrap-around; `PartialMerge` always returns `false`; consequently
resolving a key whose base encodes 0 against `n` operands each encoding 1
decodes to exactly `n` (for every operand count below `2 ^ 64`). -/
theorem countMerge_resolution (existing : Option (List Nat))
    (operands : List (List Nat)) (k l r : List Nat) (n : Nat) :
    MergeBench.FullMergeV2 existing operands =
      MergeBench.Encode
        ((existing.elim 0 MergeBench.Decode +
          (operands.map MergeBench.Decode).sum) % 2 ^ 64) ∧
    MergeBench.PartialMerge k l r = false ∧
    (n < 2 ^ 64 →
      MergeBench.Decode
        (MergeBench.FullMergeV2 (some (MergeBench.Encode 0))
          (List.replicate n (MergeBench.Encode 1))) = n) := by
  refine ⟨MergeBench.fullMerge_char existing operands, rfl, fun hn => ?_⟩
  rw [MergeBench.fullMerge_char]
  have h0 : MergeBench.Decode (MergeBench.Encode 0) = 0 :=
    MergeBench.decode_encode_small 0 (by norm_num)
  have h1 : MergeBench.Decode (MergeBench.Encode 1) = 1 :=
    MergeBench.decode_encode_small 1 (by norm_num)
  simp only [Option.elim, h0, List.map_replicate, h1, List.sum_replicate,
    smul_eq_mul, mul_one, Nat.zero_add]
  rw [Nat.mod_eq_of_lt hn]
  exact MergeBench.decode_encode_small n hn

/-- Witness for C2: partial merge refuses on concrete operands, and a base
of `Encode 0` with five operands of `Encode 1` resolves to 5. -/
theorem countMerge_resolution_witness :
    MergeBench.PartialMerge [] [] [] = false ∧
    MergeBench.Decode
      (MergeBench.FullMergeV2 (some (MergeBench.Encode 0))
        (List.replicate 5 (MergeBench.Encode 1))) = 5 :=
  ⟨(countMerge_resolution none [] [] [] [] 5).2.1,
   (countMerge_resolution none [] [] [] [] 5).2.2 (by norm_num)⟩

/-- C3: `SelectWorkloads "50/50"` returns exactly the one catalog entry with
read ratio `1/2`; the empty filter returns all three catalog entries in
catalog order; any non-empty filter matching no catalog name fails with the
configuration error. -/
theorem selectWorkloads_lookup (f : String) :
    MergeBench.SelectWorkloads "50/50" = Except.ok [⟨"50/50", 1/2⟩] ∧
    MergeBench.SelectWorkloads "" =
      Except.ok [⟨"10/90", 1/10⟩, ⟨"50/50", 1/2⟩, ⟨"90/10", 9/10⟩] ∧
    (f ≠ "" → (∀ w ∈ MergeBench.kWorkloads, w.name ≠ f) →
      MergeBench.SelectWorkloads f =
        Except.error ("Unknown workload mix filter: " ++ f)) := by
  refine ⟨rfl, rfl, fun hf hall => ?_⟩
  have hfilter : MergeBench.kWorkloads.filter (fun w => w.name = f) = [] := by
    rw [List.filter_eq_nil_iff]
    intro w hw
    simpa using hall w hw
  simp [MergeBench.SelectWorkloads, hf, hfilter]

/-- Witness for C3: the name `not-a-mix` is rejected with the configuration
error. -/
theorem selectWorkloads_lookup_witness :
    MergeBench.SelectWorkloads "not-a-mix" =
      Except.error ("Unknown workload mix filter: " ++ "not-a-mix") :=
  (selectWorkloads_lookup "not-a-mix").2.2 (by decide) (by decide)

/-- C5: the elapsed-time floor of the read prober is always positive, and
for every positive configured read-op count and every measured elapsed time
the reported ops-per-second value is positive (and, being a rational of the
form `R / flooredSeconds s` with a positive denominator, well defined and
finite). -/
theorem readThroughput_positive (readOps : Nat) (s : Rat) (hR : 0 < readOps) :
    0 < SpaceAmp.flooredSeconds s ∧ 0 < SpaceAmp.readOpsPerSec readOps s := by
  have hfloor : 0 < SpaceAmp.flooredSeconds s := by
    unfold SpaceAmp.flooredSeconds
    by_cases h : s ≤ 0
    · rw [if_pos h]
      norm_num
    · rw [if_neg h]
      exact lt_of_not_le h
  refine ⟨hfloor, ?_⟩
  unfold SpaceAmp.readOpsPerSec
  exact div_pos (by exact_mod_cast hR) hfloor

/-- Witness for C5: one read op over a measured elapsed time of zero still
reports a positive throughput. -/
theorem readThroughput_positive_witness :
    0 < SpaceAmp.flooredSeconds 0 ∧ 0 < SpaceAmp.readOpsPerSec 1 0 :=
  readThroughput_positive 1 0 (by norm_num)

/-- C1 counterexample: with configured block sizes `[4096, -1]` the list
contains a non-positive block size, yet the per-size loop of `main` creates
and loads an engine instance for the block size 4096 listed before the
offending value, contradicting the claim that no instance is created for
any block size in the list. -/
theorem blockSizeAbort_counterexample :
    ((-1 : Int) ∈ [(4096 : Int), -1] ∧ (-1 : Int) ≤ 0) ∧
    SpaceAmp.processBlockSizes [4096, -1] = ([4096], false) := by
  refine ⟨⟨by decide, by decide⟩, by decide⟩

/-- C1 amended: a non-positive configured block size aborts the run with a
configuration error before an instance is created for the offending block
size or any later one; engine instances are created and loaded exactly for
the valid block sizes preceding the first offending value. -/
theorem blockSizeAbort_amended (pre post : List Int) (b : Int)
    (hpre : ∀ p ∈ pre, 0 < p) (hb : b ≤ 0) :
    SpaceAmp.processBlockSizes (pre ++ b :: post) = (pre, false) := by
  induction pre with
  | nil => simp [SpaceAmp.processBlockSizes, hb]
  | cons a tl ih =>
      have ha : ¬a ≤ 0 := not_le.mpr (hpre a (by simp))
      have htl := ih (fun p hp => hpre p (by simp [hp]))
      simp [SpaceAmp.processBlockSizes, ha, htl]

/-- Witness for the amended C1: block sizes `[4096, -1, 8192]` run the
instance for 4096 only and abort at `-1`. -/
theorem blockSizeAbort_amended_witness :
    SpaceAmp.processBlockSizes [4096, -1, 8192] = ([4096], false) :=
  blockSizeAbort_amended [4096] [8192] (-1) (by decide) (by decide)

namespace SpaceAmp

theorem benchReadsAux_ok (oracle : Nat → GetStatus) :
    ∀ remaining issued, (∀ i, issued ≤ i → i < issued + remaining → oracle i = GetStatus.ok) →
      benchReadsAux oracle issued remaining = Except.ok (issued + remaining) := by
  intro remaining
  induction remaining with
  | zero => intro issued _; rfl
  | succ r ih =>
      intro issued h
      have hcur : oracle issued = GetStatus.ok := h issued le_rfl (by omega)
      rw [show issued + (r + 1) = issued + 1 + r by omega]
      simp only [benchReadsAux, hcur]
      exact ih (issued + 1) (fun i hi hi2 => h i (by omega) (by omega))

theorem benchReadsAux_err (oracle : Nat → GetStatus) :
    ∀ remaining issued i, issued ≤ i → i < issued + remaining →
      (∀ j, issued ≤ j → j < i → oracle j = GetStatus.ok) →
      oracle i ≠ GetStatus.ok →
      benchReadsAux oracle issued remaining =
        Except.error ("Read failed: " ++ statusMsg (oracle i)) := by
  intro remaining
  induction remaining with
  | zero => intro issued i h1 h2 _ _; omega
  | succ r ih =>
      intro issued i h1 h2 hpre hne
      rcases Nat.eq_or_lt_of_le h1 with heq | hlt
      · subst heq
        rcases hcur : oracle issued with _ | _ | m
        · exact absurd hcur hne
        · simp [benchReadsAux, hcur]
        · simp [benchReadsAux, hcur]
      · have hcur : oracle issued = GetStatus.ok := hpre issued le_rfl hlt
        simp only [benchReadsAux, hcur]
        exact ih (issued + 1) i hlt (by omega)
          (fun j hj hj2 => hpre j (by omega) hj2) hne

theorem benchReadsAux_ok_inv (oracle : Nat → GetStatus) :
    ∀ remaining issued result, benchReadsAux oracle issued remaining = Except.ok result →
      result = issued + remaining ∧
        ∀ i, issued ≤ i → i < issued + remaining → oracle i = GetStatus.ok := by
  intro remaining
  induction remaining with
  | zero =>
      intro issued result h
      refine ⟨?_, fun i h1 h2 => by omega⟩
      simpa [benchReadsAux] using h.symm
  | succ r ih =>
      intro issued result h
      rcases hcur : oracle issued with _ | _ | m
      · simp only [benchReadsAux, hcur] at h
        obtain ⟨hres, hall⟩ := ih (issued + 1) result h
        refine ⟨by omega, fun i h1 h2 => ?_⟩
        rcases Nat.eq_or_lt_of_le h1 with heq | hlt
        · subst heq; exact hcur
        · exact hall i hlt (by omega)
      · simp [benchReadsAux, hcur] at h
      · simp [benchReadsAux, hcur] at h

end SpaceAmp

/-- C4: with a positive configured read-op count `R`, the read loop of
`BenchmarkReads` issues exactly `R` point reads when every read succeeds;
any read whose status is not `ok()` — a not-found result included — aborts
the run with the fatal `Read failed` error at the first such read; and a
successful run both issued exactly `R` reads and never observed a not-found
status. -/
theorem benchReads_spec (oracle : Nat → SpaceAmp.GetStatus) (R : Nat) (_hR : 0 < R) :
    ((∀ i, i < R → oracle i = SpaceAmp.GetStatus.ok) →
      SpaceAmp.BenchmarkReads oracle R = Except.ok R) ∧
    (∀ i, i < R → (∀ j, j < i → oracle j = SpaceAmp.GetStatus.ok) →
      oracle i ≠ SpaceAmp.GetStatus.ok →
      SpaceAmp.BenchmarkReads oracle R =
        Except.error ("Read failed: " ++ SpaceAmp.statusMsg (oracle i))) ∧
    (∀ result, SpaceAmp.BenchmarkReads oracle R = Except.ok result →
      result = R ∧ ∀ i, i < R → oracle i ≠ SpaceAmp.GetStatus.notFound) := by
  refine ⟨fun h => ?_, fun i hi hpre hne => ?_, fun result h => ?_⟩
  · have := SpaceAmp.benchReadsAux_ok oracle R 0 (fun i _ hi2 => h i (by omega))
    simpa [SpaceAmp.BenchmarkReads] using this
  · have := SpaceAmp.benchReadsAux_err oracle R 0 i (Nat.zero_le i) (by omega)
      (fun j _ hj2 => hpre j hj2) hne
    simpa [SpaceAmp.BenchmarkReads] using this
  · obtain ⟨hres, hall⟩ := SpaceAmp.benchReadsAux_ok_inv oracle R 0 result h
    refine ⟨by omega, fun i hi => ?_⟩
    have := hall i (Nat.zero_le i) (by omega)
    simp [this]

/-- Witness for C4: three reads against an all-ok oracle issue exactly three
reads, and an oracle answering not-found on the second read aborts with the
fatal read error. -/
theorem benchReads_spec_witness :
    SpaceAmp.BenchmarkReads (fun _ => SpaceAmp.GetStatus.ok) 3 = Except.ok 3 ∧
    SpaceAmp.BenchmarkReads
        (fun i => if i = 1 then SpaceAmp.GetStatus.notFound else SpaceAmp.GetStatus.ok) 3 =
      Except.error ("Read failed: " ++
        SpaceAmp.statusMsg
          ((fun i => if i = 1 then SpaceAmp.GetStatus.notFound else SpaceAmp.GetStatus.ok) 1)) :=
  ⟨(benchReads_spec (fun _ => SpaceAmp.GetStatus.ok) 3 (by norm_num)).1 (fun _ _ => rfl),
   (benchReads_spec _ 3 (by norm_num)).2.1 1 (by norm_num)
     (fun j hj => by
        have h0 : j = 0 := by omega
        subst h0
        rfl) (by decide)⟩

namespace SpaceAmp

theorem fillFrom_length (index : Nat) :
    ∀ remaining j, (fillFrom index j remaining).length = remaining := by
  intro remaining
  induction remaining with
  | zero => intro j; rfl
  | succ r ih => intro j; simp [fillFrom, ih]

theorem fillFrom_get (index : Nat) :
    ∀ remaining j k, k < remaining →
      (fillFrom index j remaining)[k]? =
        some (Char.ofNat (97 + (index + j + k) % 26)) := by
  intro remaining
  induction remaining with
  | zero => intro j k hk; omega
  | succ r ih =>
      intro j k hk
      cases k with
      | zero => simp [fillFrom]
      | succ k =>
          have := ih (j + 1) k (by omega)
          rw [show index + j + (k + 1) = index + (j + 1) + k by omega]
          simpa [fillFrom] using this

end SpaceAmp

/-- C7: the generated value buffer has exactly 96 bytes and, for every
offset `j` below 96, its byte at offset `j` is the character with code
`97 + ((index + j) % 26)`, that is, the letter `'a'` shifted by
`(index + j) % 26`; the buffer is a pure function of the index alone (the
embedding is stateless by construction), so repeated calls with the same
index yield identical output. -/
theorem fillValue_spec (index j : Nat) (hj : j < 96) :
    (SpaceAmp.FillValue index).length = 96 ∧
    (SpaceAmp.FillValue index)[j]? =
      some (Char.ofNat (97 + (index + j) % 26)) := by
  refine ⟨SpaceAmp.fillFrom_length index 96 0, ?_⟩
  have := SpaceAmp.fillFrom_get index 96 0 j hj
  simpa [SpaceAmp.FillValue, SpaceAmp.kValueSize] using this

/-- Witness for C7: entry 3, offset 4 holds the letter with code
`97 + (7 % 26)`, i.e. the letter `h`. -/
theorem fillValue_spec_witness :
    (SpaceAmp.FillValue 3).length = 96 ∧
    (SpaceAmp.FillValue 3)[4]? = some (Char.ofNat (97 + (3 + 4) % 26)) :=
  fillValue_spec 3 4 (by norm_num)

namespace SpaceAmp

theorem kEntryCount_eq : kEntryCount = 2 ^ 25 := by decide

theorem distMap_balanced (t : Nat) (ht : t < kEntryCount) :
    ((Finset.range (2 ^ 64)).filter (fun x => distMap x = t)).card = 2 ^ 39 := by
  rw [kEntryCount_eq] at ht
  have himg : (Finset.range (2 ^ 64)).filter (fun x => distMap x = t) =
      (Finset.range (2 ^ 39)).image (fun k => t + k * 2 ^ 25) := by
    ext x
    simp only [Finset.mem_filter, Finset.mem_range, Finset.mem_image, distMap,
      kEntryCount_eq]
    constructor
    · rintro ⟨hx, hmod⟩
      refine ⟨x / 2 ^ 25, ?_, ?_⟩
      · have := Nat.div_add_mod x (2 ^ 25)
        omega
      · have := Nat.div_add_mod x (2 ^ 25)
        omega
    · rintro ⟨k, hk, rfl⟩
      constructor
      · omega
      · rw [Nat.add_mul_mod_self_right]
        exact Nat.mod_eq_of_lt ht
  rw [himg, Finset.card_image_of_injective _ (fun a b h => by omega),
    Finset.card_range]

end SpaceAmp

/-- C9: the read prober seeds its generator with the fixed constant
`0xC0FFEE` and never consults ambient entropy, so for any generator model
and any two runs with the same configured read-op count the probed index
sequences are identical; every probed index lies in `[0, kEntryCount)`; and
the modelled distribution map is exactly uniform: every index below
`kEntryCount` has exactly `2 ^ 39` of the `2 ^ 64` raw generator outputs
mapped onto it. -/
theorem probe_deterministic_uniform (gen : Nat → Nat → Nat) (readOps e₁ e₂ t : Nat) :
    SpaceAmp.probedIndices gen readOps e₁ = SpaceAmp.probedIndices gen readOps e₂ ∧
    (∀ idx ∈ SpaceAmp.probedIndices gen readOps e₁, idx < SpaceAmp.kEntryCount) ∧
    (t < SpaceAmp.kEntryCount →
      ((Finset.range (2 ^ 64)).filter (fun x => SpaceAmp.distMap x = t)).card =
        2 ^ 39) := by
  refine ⟨rfl, fun idx hidx => ?_, SpaceAmp.distMap_balanced t⟩
  simp only [SpaceAmp.probedIndices, List.mem_map, List.mem_range] at hidx
  obtain ⟨i, _, rfl⟩ := hidx
  exact Nat.mod_lt _ (by decide)

/-- Witness for C9: two runs of length 2 under different ambient entropy
agree, and the index 0 receives exactly `2 ^ 39` raw outputs. -/
theorem probe_deterministic_uniform_witness :
    SpaceAmp.probedIndices (fun s i => s + i) 2 0 = SpaceAmp.probedIndices (fun s i => s + i) 2 1 ∧
    ((Finset.range (2 ^ 64)).filter (fun x => SpaceAmp.distMap x = 0)).card = 2 ^ 39 :=
  ⟨(probe_deterministic_uniform (fun s i => s + i) 2 0 1 0).1,
   (probe_deterministic_uniform (fun s i => s + i) 2 0 1 0).2.2 (by decide)⟩

namespace SpaceAmp

theorem charVal_digitChar (d : Nat) (hd : d < 10) : charVal (digitChar d) = d := by
  interval_cases d <;> rfl

theorem isDigit_digitChar (d : Nat) (hd : d < 10) : (digitChar d).isDigit = true := by
  interval_cases d <;> rfl

theorem decDigits_length_le (index : Nat) (h : index < kEntryCount) :
    (decDigits index).length ≤ 32 := by
  unfold decDigits
  rw [List.length_reverse]
  rcases Nat.eq_zero_or_pos index with h0 | h0
  · subst h0
    simp
  · have hne : index ≠ 0 := Nat.pos_iff_ne_zero.mp h0
    rw [Nat.digits_len 10 index (by norm_num) hne]
    have hlog : Nat.log 10 index < 32 := by
      apply Nat.log_lt_of_lt_pow hne
      calc index < kEntryCount := h
        _ ≤ 10 ^ 32 := by decide
    omega

theorem parseDecimal_zero_pad (k : Nat) (cs : List Char) :
    parseDecimal (List.replicate k (digitChar 0) ++ cs) = parseDecimal cs := by
  unfold parseDecimal
  rw [List.foldl_append]
  have hz : List.foldl (fun acc c => acc * 10 + charVal c) 0
      (List.replicate k (digitChar 0)) = 0 := by
    induction k with
    | zero => rfl
    | succ j ih => simpa [List.replicate_succ] using ih
  rw [hz]

theorem foldl_reverse_ofDigits (ds : List Nat) :
    ∀ a, List.foldl (fun acc d => acc * 10 + d) a ds.reverse =
      a * 10 ^ ds.length + Nat.ofDigits 10 ds := by
  induction ds with
  | nil => intro a; simp [Nat.ofDigits]
  | cons d tl ih =>
      intro a
      simp only [List.reverse_cons, List.foldl_append, List.foldl_cons,
        List.foldl_nil, ih a, List.length_cons, Nat.ofDigits_cons]
      ring

theorem parseDecimal_decDigits (index : Nat) :
    parseDecimal ((decDigits index).map digitChar) = index := by
  unfold parseDecimal decDigits
  rw [List.foldl_map]
  have hext : List.foldl (fun acc d => acc * 10 + charVal (digitChar d)) 0
      (Nat.digits 10 index).reverse =
      List.foldl (fun acc d => acc * 10 + d) 0 (Nat.digits 10 index).reverse := by
    apply List.foldl_ext
    intro a d hd
    rw [charVal_digitChar d
      (Nat.digits_lt_base (by norm_num) (List.mem_reverse.mp hd))]
  rw [hext, foldl_reverse_ofDigits, Nat.ofDigits_digits]
  ring

end SpaceAmp

/-- C6: for every index below the entry count, the generated key has
exactly 32 characters, every character is a decimal digit, and reading the
key back as a decimal number yields the index (so the key is the decimal
rendering of the index left-padded with zeros to width 32). -/
theorem formatKey_spec (index : Nat) (h : index < SpaceAmp.kEntryCount) :
    (SpaceAmp.FormatKey index).length = 32 ∧
    (∀ c ∈ SpaceAmp.FormatKey index, c.isDigit = true) ∧
    SpaceAmp.parseDecimal (SpaceAmp.FormatKey index) = index := by
  have hlen := SpaceAmp.decDigits_length_le index h
  refine ⟨?_, ?_, ?_⟩
  · simp only [SpaceAmp.FormatKey, List.length_append, List.length_replicate,
      List.length_map, SpaceAmp.kKeySize]
    omega
  · intro c hc
    simp only [SpaceAmp.FormatKey, List.mem_append, List.mem_replicate,
      List.mem_map] at hc
    rcases hc with ⟨_, rfl⟩ | ⟨d, hd, rfl⟩
    · exact SpaceAmp.isDigit_digitChar 0 (by norm_num)
    · exact SpaceAmp.isDigit_digitChar d
        (Nat.digits_lt_base (by norm_num)
          (List.mem_reverse.mp hd))
  · rw [SpaceAmp.FormatKey, SpaceAmp.parseDecimal_zero_pad,
      SpaceAmp.parseDecimal_decDigits]

/-- Witness for C6: the key for index 7 is 32 characters long and reads
back as 7. -/
theorem formatKey_spec_witness :
    (SpaceAmp.FormatKey 7).length = 32 ∧
    SpaceAmp.parseDecimal (SpaceAmp.FormatKey 7) = 7 :=
  ⟨(formatKey_spec 7 (by decide)).1, (formatKey_spec 7 (by decide)).2.2⟩

namespace SpaceAmp

theorem loadLoop_join (threshold : Nat) :
    ∀ l pending, pending.length < threshold →
      (loadLoop threshold pending l).flatten = pending ++ l := by
  intro l
  induction l with
  | nil =>
      intro pending _
      by_cases hemp : pending.isEmpty
      · simp [loadLoop, hemp, List.isEmpty_iff.mp hemp]
      · simp [loadLoop, hemp]
  | cons i rest ih =>
      intro pending hp
      by_cases hth : threshold ≤ (pending ++ [i]).length
      · have hpos : 0 < threshold := by omega
        simp only [loadLoop, hth, if_true, List.flatten_cons]
        rw [ih [] hpos]
        simp
      · simp only [loadLoop, hth, if_false]
        rw [ih (pending ++ [i]) (by omega)]
        simp

theorem loadLoop_batch_bounds (threshold : Nat) :
    ∀ l pending, pending.length < threshold →
      ∀ b ∈ loadLoop threshold pending l, b ≠ [] ∧ b.length ≤ threshold := by
  intro l
  induction l with
  | nil =>
      intro pending hp b hb
      by_cases hemp : pending.isEmpty
      · simp [loadLoop, hemp] at hb
      · simp [loadLoop, hemp] at hb
        subst hb
        refine ⟨fun hnil => hemp (by simp [hnil]), by omega⟩
  | cons i rest ih =>
      intro pending hp b hb
      by_cases hth : threshold ≤ (pending ++ [i]).length
      · have hpos : 0 < threshold := by omega
        simp only [loadLoop, hth, if_true, List.mem_cons] at hb
        rcases hb with rfl | hb
        · refine ⟨by simp, ?_⟩
          simp only [List.length_append, List.length_singleton]
          simp only [List.length_append, List.length_singleton] at hth
          omega
        · exact ih [] hpos b hb
      · simp only [loadLoop, hth, if_false] at hb
        exact ih (pending ++ [i]) (by omega) b hb

theorem loadLoop_full_batches (threshold : Nat) :
    ∀ l pending, pending.length < threshold →
      ∀ k b, (loadLoop threshold pending l)[k]? = some b →
        k + 1 < (loadLoop threshold pending l).length → b.length = threshold := by
  intro l
  induction l with
  | nil =>
      intro pending _ k b _ hkl
      by_cases hemp : pending.isEmpty
      · simp [loadLoop, hemp] at hkl
      · simp [loadLoop, hemp] at hkl
  | cons i rest ih =>
      intro pending hp k b hget hkl
      by_cases hth : threshold ≤ (pending ++ [i]).length
      · have hpos : 0 < threshold := by omega
        simp only [loadLoop, hth, if_true] at hget hkl
        cases k with
        | zero =>
            simp only [List.getElem?_cons_zero, Option.some_inj] at hget
            subst hget
            simp only [List.length_append, List.length_singleton] at hth ⊢
            omega
        | succ k =>
            simp only [List.getElem?_cons_succ] at hget
            simp only [List.length_cons] at hkl
            exact ih [] hpos k b hget (by omega)
      · simp only [loadLoop, hth, if_false] at hget hkl
        exact ih (pending ++ [i]) (by omega) k b hget hkl

theorem writeBatches_flatten (n : Nat) : (writeBatches n).flatten = List.range n := by
  have := loadLoop_join batchThreshold (List.range n) [] (by decide)
  simpa [writeBatches] using this

theorem runOps_ok (oracle : Op → EngineStatus) :
    ∀ ops, (∀ op ∈ ops, oracle op = EngineStatus.ok) →
      runOps oracle ops = Except.ok ops := by
  intro ops
  induction ops with
  | nil => intro _; rfl
  | cons op rest ih =>
      intro h
      have hop : oracle op = EngineStatus.ok := h op (by simp)
      simp only [runOps, hop]
      rw [ih (fun o ho => h o (by simp [ho]))]
      rfl

theorem runOps_err (oracle : Op → EngineStatus) :
    ∀ pre op rest m, (∀ p ∈ pre, oracle p = EngineStatus.ok) →
      oracle op = EngineStatus.error m →
      runOps oracle (pre ++ op :: rest) =
        Except.error (opName op ++ " failed: " ++ m) := by
  intro pre
  induction pre with
  | nil =>
      intro op rest m _ hop
      simp [runOps, hop]
  | cons p pre' ih =>
      intro op rest m hpre hop
      have hp : oracle p = EngineStatus.ok := hpre p (by simp)
      simp only [List.cons_append, runOps, hp, List.append_eq]
      rw [ih op rest m (fun q hq => hpre q (by simp [hq])) hop]
      rfl

end SpaceAmp

namespace SpaceAmp

theorem loadTrace_write_at (n k : Nat) (hk : k < (writeBatches n).length) :
    ∃ b, (loadTrace n)[k]? = some (Op.batchWrite b) := by
  unfold loadTrace
  rw [List.getElem?_append_left (by simpa using hk)]
  rw [List.getElem?_map]
  rw [List.getElem?_eq_getElem hk]
  exact ⟨(writeBatches n)[k], rfl⟩

theorem loadTrace_flush_at (n : Nat) :
    (loadTrace n)[(writeBatches n).length]? = some Op.flush := by
  unfold loadTrace
  rw [List.getElem?_append_right (by simp)]
  simp

theorem loadTrace_compact_at (n : Nat) :
    (loadTrace n)[(writeBatches n).length + 1]? = some Op.compact := by
  unfold loadTrace
  rw [List.getElem?_append_right (by simp)]
  simp

end SpaceAmp

/-- C8: the bulk loader writes all `n` generated entry indices to the
engine in order, split into batches submitted exactly when the batch count
reaches the threshold 1000 (every submitted batch except possibly the last
has exactly 1000 entries; every batch is non-empty and at most 1000); the
write options disable the write-ahead log and the flush options block; in
the attempted operation sequence the blocking flush sits immediately after
the last batched write and the full-range compaction immediately after the
flush; when every operation succeeds the whole sequence executes, and the
first failing write, flush or compaction aborts the run with a fatal error
naming the operation and the cause string reported by the engine. -/
theorem bulkLoad_spec (n : Nat) (oracle : SpaceAmp.Op → SpaceAmp.EngineStatus)
    (pre rest : List SpaceAmp.Op) (op : SpaceAmp.Op) (m : String) :
    SpaceAmp.loadWriteOpts.disableWAL = true ∧
    SpaceAmp.loadFlushOpts.wait = true ∧
    (SpaceAmp.writeBatches n).flatten = List.range n ∧
    (∀ b ∈ SpaceAmp.writeBatches n, b ≠ [] ∧ b.length ≤ 1000) ∧
    (∀ k b, (SpaceAmp.writeBatches n)[k]? = some b →
      k + 1 < (SpaceAmp.writeBatches n).length → b.length = 1000) ∧
    (∀ k, k < (SpaceAmp.writeBatches n).length →
      ∃ b, (SpaceAmp.loadTrace n)[k]? = some (SpaceAmp.Op.batchWrite b)) ∧
    (SpaceAmp.loadTrace n)[(SpaceAmp.writeBatches n).length]? =
      some SpaceAmp.Op.flush ∧
    (SpaceAmp.loadTrace n)[(SpaceAmp.writeBatches n).length + 1]? =
      some SpaceAmp.Op.compact ∧
    ((∀ o ∈ SpaceAmp.loadTrace n, oracle o = SpaceAmp.EngineStatus.ok) →
      SpaceAmp.runLoad oracle n = Except.ok (SpaceAmp.loadTrace n)) ∧
    (SpaceAmp.loadTrace n = pre ++ op :: rest →
      (∀ p ∈ pre, oracle p = SpaceAmp.EngineStatus.ok) →
      oracle op = SpaceAmp.EngineStatus.error m →
      SpaceAmp.runLoad oracle n =
        Except.error (SpaceAmp.opName op ++ " failed: " ++ m)) := by
  have hthr : SpaceAmp.batchThreshold = 1000 := rfl
  refine ⟨rfl, rfl, SpaceAmp.writeBatches_flatten n, ?_, ?_, ?_, ?_, ?_, ?_, ?_⟩
  · intro b hb
    have := SpaceAmp.loadLoop_batch_bounds SpaceAmp.batchThreshold (List.range n) []
      (by decide) b hb
    rw [hthr] at this
    exact this
  · intro k b hget hkl
    have := SpaceAmp.loadLoop_full_batches SpaceAmp.batchThreshold (List.range n) []
      (by decide) k b hget hkl
    rw [hthr] at this
    exact this
  · exact SpaceAmp.loadTrace_write_at n
  · exact SpaceAmp.loadTrace_flush_at n
  · exact SpaceAmp.loadTrace_compact_at n
  · intro h
    exact SpaceAmp.runOps_ok oracle (SpaceAmp.loadTrace n) h
  · intro heq hpre hop
    unfold SpaceAmp.runLoad
    rw [heq]
    exact SpaceAmp.runOps_err oracle pre op rest m hpre hop

/-- Witness for C8: loading five entries against an all-ok engine executes
the whole trace (one partial batch, flush, compaction), and an engine whose
flush fails aborts the run with the `Flush failed` error. -/
theorem bulkLoad_spec_witness :
    SpaceAmp.runLoad (fun _ => SpaceAmp.EngineStatus.ok) 5 =
      Except.ok (SpaceAmp.loadTrace 5) ∧
    SpaceAmp.runLoad
        (fun o =>
          match o with
          | SpaceAmp.Op.flush => SpaceAmp.EngineStatus.error "disk full"
          | _ => SpaceAmp.EngineStatus.ok) 5 =
      Except.error (SpaceAmp.opName SpaceAmp.Op.flush ++ " failed: " ++ "disk full") :=
  ⟨(bulkLoad_spec 5 (fun _ => SpaceAmp.EngineStatus.ok) [] [] SpaceAmp.Op.flush "").2.2.2.2.2.2.2.2.1
      (fun _ _ => rfl),
   (bulkLoad_spec 5
        (fun o =>
          match o with
          | SpaceAmp.Op.flush => SpaceAmp.EngineStatus.error "disk full"
          | _ => SpaceAmp.EngineStatus.ok)
        ((SpaceAmp.writeBatches 5).map SpaceAmp.Op.batchWrite)
        [SpaceAmp.Op.compact] SpaceAmp.Op.flush "disk full").2.2.2.2.2.2.2.2.2
      rfl (by decide) rfl⟩
